import Mathlib

/-!  Verification of the kelime-quiz session engine (src/App.js).

Strings are modelled as `List Char`.  JavaScript's
`toLocaleLowerCase('tr')` performs full Unicode lowercasing with the
Turkish tailoring for the dotted/dotless i pair; the embedding models it
on the alphabets the application actually handles (ASCII letters plus
the Turkish letters), which is where the function is exercised.
JavaScript's `\s` whitespace class is modelled by the ASCII whitespace
characters.  Cursor indices are modelled as `Int` (JavaScript numbers
restricted to integers), and JavaScript's `%` operator on integers is
`Int.tmod` (truncated remainder, sign of the dividend). -/

namespace KelimeQuiz

/-- Whitespace characters matched by the JavaScript regex class `\s`
(restricted to ASCII whitespace). -/
def isWs (c : Char) : Bool :=
  c == ' ' || c == '\t' || c == '\n' || c == '\r' || c == '\x0B' || c == '\x0C'

/-- The punctuation characters of the regex character class
`[.,/#!$%^&*;:{}=\-_`~()'"]` in `normalize` (App.js line 20). -/
def punctChars : List Char :=
  ['.', ',', '/', '#', '!', '$', '%', '^', '&', '*', ';', ':',
   Char.ofNat 123, Char.ofNat 125, '=', '-', '_', Char.ofNat 96, '~',
   '(', ')', Char.ofNat 39, Char.ofNat 34]

/-- Membership in the punctuation class of `normalize`. -/
def isPunct (c : Char) : Bool :=
  punctChars.contains c

/-- Case-folding table of `toLocaleLowerCase('tr')` on the alphabets the
app uses: the Turkish rules for the dotted/dotless i pair come first
(`I` folds to `ı` and `İ` folds to `i`), then the other Turkish capitals
and the remaining ASCII capitals. -/
def trCaseTable : List (Char × Char) :=
  [('I', 'ı'), ('İ', 'i'), ('Ç', 'ç'), ('Ğ', 'ğ'), ('Ö', 'ö'), ('Ş', 'ş'), ('Ü', 'ü'),
   ('A', 'a'), ('B', 'b'), ('C', 'c'), ('D', 'd'), ('E', 'e'), ('F', 'f'), ('G', 'g'),
   ('H', 'h'), ('J', 'j'), ('K', 'k'), ('L', 'l'), ('M', 'm'), ('N', 'n'), ('O', 'o'),
   ('P', 'p'), ('Q', 'q'), ('R', 'r'), ('S', 's'), ('T', 't'), ('U', 'u'), ('V', 'v'),
   ('W', 'w'), ('X', 'x'), ('Y', 'y'), ('Z', 'z')]

/-- Turkish-locale lowercasing of one character, per `trCaseTable`. -/
def trLower (c : Char) : Char :=
  match trCaseTable.find? (fun p => p.1 == c) with
  | some p => p.2
  | none => c

/-- The replacement step `.replace(/[.,...]/g, ' ')` of `normalize`,
applied characterwise (each punctuation character becomes one space). -/
def scrub (c : Char) : Char :=
  if isPunct c then ' ' else c

/-- The collapsing step `.replace(/\s+/g, ' ')` of `normalize`: every
maximal run of whitespace becomes a single space (a whitespace character
directly followed by another whitespace character is dropped; the last
character of a run is emitted as one space). -/
def collapseWs : List Char → List Char
  | [] => []
  | [c] => if isWs c then [' '] else [c]
  | a :: b :: rest =>
    if isWs a && isWs b then collapseWs (b :: rest)
    else (if isWs a then ' ' else a) :: collapseWs (b :: rest)

/-- Removal of a trailing whitespace run (the right half of
JavaScript's `String.prototype.trim`). -/
def trimRight : List Char → List Char
  | [] => []
  | c :: rest =>
    let r := trimRight rest
    if r.isEmpty && isWs c then [] else c :: r

/-- JavaScript's `String.prototype.trim`: strip leading and trailing
whitespace. -/
def trimWs (l : List Char) : List Char :=
  trimRight (l.dropWhile isWs)

/-- `normalize` (App.js lines 17-23): Turkish-locale lowercasing, then
each punctuation character replaced by a space, then whitespace runs
collapsed to single spaces, then trimmed. -/
def normalize (s : List Char) : List Char :=
  trimWs (collapseWs ((s.map trLower).map scrub))

/-- JavaScript's `String.prototype.split('|')`: the delimiter-separated
pieces, keeping empty pieces (`''.split('|')` is `['']`). -/
def splitBar : List Char → List (List Char)
  | [] => [[]]
  | c :: rest =>
    if c == '|' then [] :: splitBar rest
    else
      match splitBar rest with
      | [] => [[c]]
      | g :: gs => (c :: g) :: gs

/-- `isCorrect` (App.js lines 25-29): the truth is split on `|`, every
variant is normalized, and the normalized user answer must equal some
normalized variant of positive length. -/
def isCorrect (ua truth : List Char) : Bool :=
  let u := normalize ua
  (splitBar truth).any fun v =>
    let o := normalize v
    decide (0 < o.length) && decide (u = o)

/-- Character loop of `getHint`, carrying the absolute index `i`. -/
def getHintGo (rc : Nat) (i : Nat) : List Char → List Char
  | [] => []
  | c :: rest => (if i < rc || c == ' ' then c else '.') :: getHintGo rc (i + 1) rest

/-- `getHint` (App.js lines 31-42): characters at index below
`revealedCount`, and literal spaces, are kept; the rest become `.`.
The guard `if (!word) return ''` is the empty-string case. -/
def getHint (word : List Char) (revealedCount : Nat) : List Char :=
  if word.isEmpty then [] else getHintGo revealedCount 0 word

/-- Syllable heuristic `syllabify` (App.js lines 44-47): a hyphen after
every vowel (vowel set aeiouy, case-insensitive), then a trailing hyphen
is stripped. -/
def isVowel (c : Char) : Bool :=
  (['a', 'e', 'i', 'o', 'u', 'y'] : List Char).contains c
    || (['A', 'E', 'I', 'O', 'U', 'Y'] : List Char).contains c

/-- A word-pair record of the word bank (`{en, tr}` in words.json). -/
structure Word where
  en : List Char
  tr : List Char
  deriving DecidableEq

/-- The fallback object `{ en: '-', tr: '-' }` used by `current`
(App.js line 61) when `orderedWords[idx]` is undefined. -/
def sentinelW : Word :=
  ⟨['-'], ['-']⟩

/-- The `stats` counters. -/
structure Stats where
  correct : Nat
  wrong : Nat
  passed : Nat
  deriving DecidableEq

/-- The quiz direction (`quizMode`, either `en2tr` or `tr2en`). -/
inductive Mode where
  | en2tr
  | tr2en
  deriving DecidableEq

/-- The mutable session state of `App` (the React state variables
`orderedWords`, `idx`, `answer`, `revealed`, `stats`, `quizMode`,
`hintCount`).  `idx` is an `Int` because a persisted snapshot may
contain any integer. -/
structure QState where
  orderedWords : List Word
  idx : Int
  answer : List Char
  revealed : Bool
  stats : Stats
  quizMode : Mode
  hintCount : Nat
  deriving DecidableEq

/-- ECMAScript relative-index resolution used by `Array.prototype.slice`:
negative indices count from the end, and the result is clamped to
`[0, len]`. -/
def jsIndex (len : Nat) (x : Int) : Nat :=
  if x < 0 then ((len : Int) + x).toNat else min x.toNat len

/-- `Array.prototype.slice(s, e)` on a list. -/
def jsSlice {α : Type} (l : List α) (s e : Int) : List α :=
  (l.take (jsIndex l.length e)).drop (jsIndex l.length s)

/-- JavaScript array indexing `l[i]` with an integer index: `undefined`
(here `none`) outside `[0, length)`. -/
def jsGet {α : Type} (l : List α) (i : Int) : Option α :=
  if 0 ≤ i then l[i.toNat]? else none

/-- The swap `[a[i], a[j]] = [a[j], a[i]]` inside `shuffle`; out-of-range
indices leave the array unchanged (never hit by `shuffle`). -/
def swapIdx {α : Type} (l : List α) (i j : Nat) : List α :=
  match l[i]?, l[j]? with
  | some x, some y => (l.set i y).set j x
  | _, _ => l

/-- Fisher-Yates `shuffle` (App.js lines 8-15) on a copy of the input:
for `i` from `length-1` down to `1`, swap position `i` with position
`j = Math.floor(Math.random() * (i+1))`.  The random source is modelled
by a function `r`; `r i % (i+1)` ranges over exactly the values the
random draw can produce. -/
def shuffle {α : Type} (r : Nat → Nat) (a : List α) : List α :=
  ((List.range' 1 (a.length - 1)).reverse).foldl
    (fun acc i => swapIdx acc i (r i % (i + 1))) a

/-- `current` (App.js line 61): `orderedWords[idx] || { en: '-', tr: '-' }`. -/
def currentW (s : QState) : Word :=
  (jsGet s.orderedWords s.idx).getD sentinelW

/-- `correctAnswer` (App.js line 64): the answer field selected by the
quiz mode. -/
def correctAnswer (s : QState) : List Char :=
  match s.quizMode with
  | .en2tr => (currentW s).tr
  | .tr2en => (currentW s).en

/-- `goNext` (App.js lines 123-129): advance the cursor with JavaScript's
`%` (truncated remainder) and reset the per-question fields.  (For an
empty `orderedWords` the JavaScript expression is `NaN`; every theorem
about `goNext` assumes a nonempty order.) -/
def goNext (s : QState) : QState :=
  { s with idx := (s.idx + 1).tmod (s.orderedWords.length : Int),
           revealed := false, answer := [], hintCount := 0 }

/-- `onPass` (App.js lines 112-121): remove the current item (via two
slices) and append `current` at the end; `idx` is not changed. -/
def onPass (s : QState) : QState :=
  let w := currentW s
  let rest := jsSlice s.orderedWords 0 s.idx
      ++ jsSlice s.orderedWords (s.idx + 1) (s.orderedWords.length : Int)
  { s with orderedWords := rest ++ [w],
           stats := { s.stats with passed := s.stats.passed + 1 },
           revealed := false, answer := [], hintCount := 0 }

/-- `onSubmit` (App.js lines 99-110): blank answers are a no-op; a
correct answer bumps `correct` and advances; a wrong answer bumps
`wrong` and reveals without advancing. -/
def onSubmit (s : QState) : QState :=
  if trimWs s.answer = [] then s
  else if isCorrect s.answer (correctAnswer s) then
    goNext { s with stats := { s.stats with correct := s.stats.correct + 1 } }
  else
    { s with revealed := true,
             stats := { s.stats with wrong := s.stats.wrong + 1 } }

/-- The reshuffle button (App.js lines 236-243): shuffle the current
order, reset the cursor and the per-question fields. -/
def karistir (r : Nat → Nat) (s : QState) : QState :=
  { s with orderedWords := shuffle r s.orderedWords, idx := 0,
           answer := [], revealed := false, hintCount := 0 }

/-- The `orderedWords` field of a parsed snapshot: either a JSON array
(of word records) or some truthy non-array value. -/
inductive OrderVal where
  | arr (l : List Word)
  | nonArr
  deriving DecidableEq

/-- A parsed persisted snapshot.  `none` in a field models an absent (or
falsy) field, handled by `||` / `??` in the load effect. -/
structure Snapshot where
  orderedWords : Option OrderVal
  idx : Option Int
  stats : Option Stats
  quizMode : Option Mode

/-- The order restored by the load effect (App.js lines 75-78):
`parsed.orderedWords || wordsData`, replaced by a fresh shuffle unless
it is an array whose length equals the word bank's. -/
def restoredOrder (bank : List Word) (r : Nat → Nat) (snap : Snapshot) : List Word :=
  match snap.orderedWords.getD (.arr bank) with
  | .arr l => if l.length = bank.length then l else shuffle r bank
  | .nonArr => shuffle r bank

/-- The load effect (App.js lines 69-90) applied to a successfully
parsed snapshot: sets the restored order, `idx` clamped from above by
`Math.min(parsed.idx ?? 0, restoredOrder.length - 1)`, and the stats and
mode from the snapshot with their `||` fallbacks.  (With no stored
string, or a parse failure, the state is left as initialised.) -/
def applyLoad (bank : List Word) (r : Nat → Nat) (snap : Snapshot) (s : QState) : QState :=
  let ro := restoredOrder bank r snap
  { s with orderedWords := ro,
           idx := min (snap.idx.getD 0) ((ro.length : Int) - 1),
           stats := snap.stats.getD ⟨0, 0, 0⟩,
           quizMode := snap.quizMode.getD .en2tr }

/-- The scheduler operations quantified over by the permutation
invariant: `advance` (`goNext`), `defer_to_end` (`onPass`) and
`reshuffle` (the reshuffle button, with its random draws). -/
inductive SchedOp where
  | advance
  | pass
  | reshuffle (r : Nat → Nat)

/-- One scheduler operation applied to the session state. -/
def applySched (s : QState) (op : SchedOp) : QState :=
  match op with
  | .advance => goNext s
  | .pass => onPass s
  | .reshuffle r => karistir r s

/-- A fresh session (App.js lines 50-57): shuffled bank, cursor 0,
zero stats. -/
def initState (r : Nat → Nat) (bank : List Word) : QState :=
  { orderedWords := shuffle r bank, idx := 0, answer := [],
    revealed := false, stats := ⟨0, 0, 0⟩, quizMode := .en2tr,
    hintCount := 0 }

example : shuffle (fun _ => 0) [1, 2, 3] = [2, 3, 1] := by decide
example : normalize ("  IŞIK  li--`~ ").data = ("ışık li").data := by decide

/-! ### Concrete fixtures used by counterexamples and witnesses -/

/-- A concrete word pair. -/
def wA : Word :=
  ⟨['a'], ['x']⟩

/-- A second concrete word pair. -/
def wB : Word :=
  ⟨['b'], ['y']⟩

/-- A concrete random source (always draws 0). -/
def r0 : Nat → Nat :=
  fun _ => 0

/-- A one-word bank. -/
def bank1 : List Word :=
  [wA]

/-- A two-word bank. -/
def bank2 : List Word :=
  [wA, wB]

/-- The session state over an empty word bank. -/
def emptyBankState : QState :=
  { orderedWords := [], idx := 0, answer := [], revealed := false,
    stats := ⟨0, 0, 0⟩, quizMode := .en2tr, hintCount := 0 }

/-- A snapshot whose order is an array of the right length but with a
duplicated word (not a permutation of the bank). -/
def snapDup : Snapshot :=
  ⟨some (.arr [wA, wA]), some 0, none, none⟩

/-- A snapshot whose order field is a truthy non-array and whose stats
are nonzero. -/
def snapBadStats : Snapshot :=
  ⟨some .nonArr, some 0, some ⟨7, 0, 0⟩, none⟩

/-- A snapshot with a well-formed order but a negative cursor. -/
def snapNegIdx : Snapshot :=
  ⟨some (.arr [wA]), some (-1), none, none⟩

/-- A state sitting at cursor 1 of a two-word order. -/
def sC3 : QState :=
  { orderedWords := [wA, wB], idx := 1, answer := [], revealed := false,
    stats := ⟨0, 0, 0⟩, quizMode := .en2tr, hintCount := 0 }

/-! ### Hint-mask lemmas -/

/-- The hint loop preserves the length. -/
lemma getHintGo_length (rc : Nat) : ∀ (l : List Char) (j : Nat),
    (getHintGo rc j l).length = l.length
  | [], _ => rfl
  | _ :: l, j => by simp [getHintGo, getHintGo_length rc l (j + 1)]

/-- Pointwise description of the hint loop. -/
lemma getHintGo_getElem? (rc : Nat) : ∀ (l : List Char) (j k : Nat),
    (getHintGo rc j l)[k]? =
      (l[k]?).map (fun c => if j + k < rc ∨ c = ' ' then c else '.')
  | [], _, _ => by simp [getHintGo]
  | c :: l, j, 0 => by
      simp only [getHintGo, List.getElem?_cons_zero, Option.map_some', Nat.add_zero]
      by_cases h : j < rc ∨ c = ' '
      · rcases h with h | h <;>
          simp [h, decide_eq_true_eq]
      · push_neg at h
        simp [if_neg, h.1, h.2]
  | c :: l, j, k + 1 => by
      have hidx : j + (k + 1) = (j + 1) + k := by omega
      simp only [getHintGo, List.getElem?_cons_succ,
        getHintGo_getElem? rc l (j + 1) k, hidx]

/-! ### Claim theorems (first batch) -/

/-- C1: for every user answer and truth string, `isCorrect` returns true
iff the normalized user answer is exactly the normalization of some
variant of the truth (truth split on the bar delimiter) whose
normalization is non-empty, with normalization being Turkish-locale
lowercasing, punctuation-to-space replacement, whitespace collapsing and
trimming (the `normalize` of this file). -/
theorem C1_matcher_iff (ua truth : List Char) :
    isCorrect ua truth = true ↔
      ∃ v ∈ splitBar truth, normalize v ≠ [] ∧ normalize ua = normalize v := by
  simp only [isCorrect, List.any_eq_true, Bool.and_eq_true, decide_eq_true_eq,
    List.length_pos]

/-- C6: the hint mask has the length of the truth, keeps the character
at index `i` iff `i < revealedCount` or it is a literal space, masks the
rest with a dot, and in particular mask("kalem",2) = "ka..." and
mask("iki kere",1) = "i.. ....". -/
theorem C6_hint_mask (word : List Char) (rc i : Nat) :
    (getHint word rc).length = word.length
      ∧ (getHint word rc)[i]? =
          (word[i]?).map (fun c => if i < rc ∨ c = ' ' then c else '.')
      ∧ getHint ("kalem").data 2 = ("ka...").data
      ∧ getHint ("iki kere").data 1 = ("i.. ....").data := by
  refine ⟨?_, ?_, by decide, by decide⟩
  · cases word with
    | nil => rfl
    | cons c l => simp [getHint, getHintGo_length]
  · cases word with
    | nil => simp [getHint]
    | cons c l =>
        have h := getHintGo_getElem? rc (c :: l) 0 i
        simpa [getHint, Nat.zero_add] using h

/-- C9 counterexample: the claimed result isCorrect("el ma","elma") =
true is false on the code — the internal whitespace of "el ma" collapses
to a single space, it is not removed, so the normalized answer "el ma"
differs from "elma". -/
theorem C9_cex : isCorrect ("el ma").data ("elma").data = false := by decide

/-- C9 (amended): of the four concrete Matcher results stated by the
spec, three hold, and isCorrect("el ma","elma") is false. -/
theorem C9_matcher_examples :
    isCorrect ("Elma").data ("elma|elma.").data = true
      ∧ isCorrect ("el ma").data ("elma").data = false
      ∧ isCorrect (" Kitap ").data ("kitap").data = true
      ∧ isCorrect ("kitaplar").data ("kitap").data = false := by decide

/-- C7 counterexample: on an empty word bank, `onPass` is not a no-op —
it changes the order (appending the sentinel item) and the stats
(incrementing `passed`). -/
theorem C7_cex :
    ¬ ((onPass emptyBankState).orderedWords = emptyBankState.orderedWords
        ∧ (onPass emptyBankState).stats = emptyBankState.stats) := by decide

/-- C7 (amended): with an empty word bank the engine exposes the
sentinel item { en: '-', tr: '-' } as the current item and a blank
submit is a no-op, but `pass` appends the sentinel to the order and
increments `passed`, so not every operation leaves the state
unchanged. -/
theorem C7_empty_bank :
    currentW emptyBankState = sentinelW
      ∧ onSubmit emptyBankState = emptyBankState
      ∧ onPass emptyBankState
          = { emptyBankState with
              orderedWords := [sentinelW]
              stats := ⟨0, 0, 1⟩ } := by decide

/-- C2 counterexample: restoring a snapshot whose order is an array of
the right length but not a permutation of the bank (here a duplicated
word) leaves `order` not a permutation of the word bank — only
array-ness and length are validated. -/
theorem C2_cex :
    ¬ List.Perm ((applyLoad bank2 r0 snapDup (initState r0 bank2)).orderedWords)
        bank2 := by decide

/-- C3 counterexample: with order [wA, wB] and cursor 1, deferring and
then len-1 = 1 advance does not return to the deferred item: the cursor
lands on wA while the deferred item was wB. -/
theorem C3_cex : currentW (goNext (onPass sC3)) ≠ currentW sC3 := by decide

/-- C5 counterexample: restoring a snapshot with a malformed (non-array)
order but stats {correct := 7} does not reset the stats to zero — the
snapshot stats are still applied. -/
theorem C5_cex :
    (applyLoad bank1 r0 snapBadStats (initState r0 bank1)).stats ≠ ⟨0, 0, 0⟩ := by
  decide

/-- C8 counterexample: restoring a snapshot whose cursor field is -1
leaves the cursor at -1, outside [0, len), although the order is
non-empty — `Math.min` clamps only from above. -/
theorem C8_cex :
    (applyLoad bank1 r0 snapNegIdx (initState r0 bank1)).idx < 0
      ∧ (applyLoad bank1 r0 snapNegIdx (initState r0 bank1)).orderedWords.length
          = 1 := by decide

/-! ### Shape predicates for normalized strings -/

/-- The first two characters are not both whitespace. -/
def pairOk (a : Char) (l : List Char) : Bool :=
  match l with
  | [] => true
  | b :: _ => !(isWs a && isWs b)

/-- No two adjacent whitespace characters. -/
def noRun : List Char → Bool
  | [] => true
  | a :: l => pairOk a l && noRun l

/-- Every whitespace character is a plain space. -/
def wsOk (l : List Char) : Bool :=
  l.all fun c => !isWs c || c == ' '

/-- The string does not start with whitespace. -/
def headOk : List Char → Bool
  | [] => true
  | c :: _ => !isWs c

/-- The string does not end with whitespace. -/
def lastOk : List Char → Bool
  | [] => true
  | [c] => !isWs c
  | _ :: b :: l => lastOk (b :: l)

/-- A character unchanged by the lowercasing and punctuation steps. -/
def charNormal (c : Char) : Bool :=
  (trLower c == c) && (scrub c == c)

/-! ### Character-level lemmas -/

/-- Every lowercase image in the case table is a fixed point of
`trLower`. -/
lemma trLower_table_snd : ∀ p ∈ trCaseTable, trLower p.2 = p.2 := by decide

/-- `trLower` on a character missing from the table. -/
lemma trLower_of_none {c : Char}
    (h : trCaseTable.find? (fun p => p.1 == c) = none) : trLower c = c := by
  simp [trLower, h]

/-- `trLower` on a character found in the table. -/
lemma trLower_of_some {c : Char} {p : Char × Char}
    (h : trCaseTable.find? (fun p => p.1 == c) = some p) : trLower c = p.2 := by
  simp [trLower, h]

/-- `trLower` is idempotent. -/
lemma trLower_trLower (c : Char) : trLower (trLower c) = trLower c := by
  cases h : trCaseTable.find? (fun p => p.1 == c) with
  | none => rw [trLower_of_none h, trLower_of_none h]
  | some p =>
      rw [trLower_of_some h]
      exact trLower_table_snd p (List.mem_of_find?_eq_some h)

/-- A space is normal. -/
lemma charNormal_space : charNormal ' ' = true := by decide

/-- The image of the lowercasing and punctuation steps is normal. -/
lemma charNormal_scrub_trLower (c : Char) : charNormal (scrub (trLower c)) = true := by
  by_cases hp : isPunct (trLower c) = true
  · have h1 : scrub (trLower c) = ' ' := by simp [scrub, hp]
    rw [h1]; exact charNormal_space
  · have h1 : scrub (trLower c) = trLower c := by
      simp [scrub, hp]
    rw [h1]
    simp [charNormal, trLower_trLower, h1]

/-! ### Lemmas about `collapseWs` -/

/-- Equation for `collapseWs` on a singleton. -/
lemma collapseWs_one (c : Char) : collapseWs [c] = if isWs c then [' '] else [c] :=
  rfl

/-- Equation for `collapseWs` on two or more characters. -/
lemma collapseWs_two (a b : Char) (l : List Char) :
    collapseWs (a :: b :: l) =
      if isWs a && isWs b then collapseWs (b :: l)
      else (if isWs a then ' ' else a) :: collapseWs (b :: l) :=
  rfl

/-- Equation for `noRun` on a cons. -/
lemma noRun_cons (a : Char) (l : List Char) :
    noRun (a :: l) = (pairOk a l && noRun l) :=
  rfl

/-- Equation for `pairOk` on a cons. -/
lemma pairOk_cons (a b : Char) (t : List Char) :
    pairOk a (b :: t) = !(isWs a && isWs b) :=
  rfl

/-- Equation for `wsOk` on a cons. -/
lemma wsOk_cons (c : Char) (l : List Char) :
    wsOk (c :: l) = ((!isWs c || c == ' ') && wsOk l) :=
  rfl

/-- The head of a collapsed nonempty string: the head character,
whitespace turned into a space. -/
lemma collapseWs_cons_head : ∀ (l : List Char) (a : Char),
    ∃ t, collapseWs (a :: l) = (if isWs a then ' ' else a) :: t
  | [], a => ⟨[], by by_cases h : isWs a = true <;> simp [collapseWs_one, h]⟩
  | b :: l, a => by
      by_cases h : (isWs a && isWs b) = true
      · obtain ⟨t, ht⟩ := collapseWs_cons_head l b
        obtain ⟨ha, hb⟩ := Bool.and_eq_true_iff.mp h
        exact ⟨t, by rw [collapseWs_two, if_pos h, ht, if_pos hb, if_pos ha]⟩
      · exact ⟨collapseWs (b :: l), by rw [collapseWs_two, if_neg h]⟩

/-- Collapsing leaves only spaces as whitespace. -/
lemma collapseWs_wsOk : ∀ l : List Char, wsOk (collapseWs l) = true
  | [] => rfl
  | [c] => by
      by_cases h : isWs c = true
      · rw [collapseWs_one, if_pos h]; decide
      · rw [collapseWs_one, if_neg h, wsOk_cons]
        refine Bool.and_eq_true_iff.mpr ⟨by simp [h], rfl⟩
  | a :: b :: l => by
      have ih := collapseWs_wsOk (b :: l)
      by_cases h : (isWs a && isWs b) = true
      · rw [collapseWs_two, if_pos h]; exact ih
      · rw [collapseWs_two, if_neg h, wsOk_cons]
        refine Bool.and_eq_true_iff.mpr ⟨?_, ih⟩
        by_cases ha : isWs a = true
        · rw [if_pos ha]; decide
        · rw [if_neg ha]; simp [ha]

/-- Collapsing leaves no adjacent whitespace pair. -/
lemma collapseWs_noRun : ∀ l : List Char, noRun (collapseWs l) = true
  | [] => rfl
  | [c] => by
      by_cases h : isWs c = true
      · rw [collapseWs_one, if_pos h]; decide
      · rw [collapseWs_one, if_neg h]; simp [noRun, pairOk]
  | a :: b :: l => by
      have ih := collapseWs_noRun (b :: l)
      by_cases h : (isWs a && isWs b) = true
      · rw [collapseWs_two, if_pos h]; exact ih
      · obtain ⟨t, ht⟩ := collapseWs_cons_head l b
        rw [collapseWs_two, if_neg h, ht]
        rw [ht] at ih
        rw [noRun_cons]
        refine Bool.and_eq_true_iff.mpr ⟨?_, ih⟩
        rw [pairOk_cons]
        by_cases ha : isWs a = true
        · have hb : isWs b = false := by
            cases hbb : isWs b
            · rfl
            · exact absurd (by rw [ha, hbb]; rfl : (isWs a && isWs b) = true) h
          rw [if_pos ha, if_neg (by simp [hb] : ¬(isWs b = true))]
          simp [hb]
        · rw [if_neg ha]
          have ha' : isWs a = false := by
            cases haa : isWs a
            · rfl
            · exact absurd haa ha
          simp [ha']

/-- Characters of a collapsed string: spaces or original characters. -/
lemma collapseWs_mem : ∀ (l : List Char) (x : Char), x ∈ collapseWs l →
    x = ' ' ∨ x ∈ l
  | [], x => by intro hx; exact absurd hx (List.not_mem_nil x)
  | [c], x => by
      by_cases h : isWs c = true
      · rw [collapseWs_one, if_pos h]
        intro hx
        exact Or.inl (List.mem_singleton.mp hx)
      · rw [collapseWs_one, if_neg h]
        intro hx
        exact Or.inr (by rw [List.mem_singleton.mp hx]; exact List.mem_singleton_self c)
  | a :: b :: l, x => by
      by_cases h : (isWs a && isWs b) = true
      · rw [collapseWs_two, if_pos h]
        intro hx
        rcases collapseWs_mem (b :: l) x hx with h1 | h1
        · exact Or.inl h1
        · exact Or.inr (List.mem_cons_of_mem a h1)
      · rw [collapseWs_two, if_neg h]
        intro hx
        rcases List.mem_cons.mp hx with hx1 | hx2
        · by_cases ha : isWs a = true
          · rw [if_pos ha] at hx1; exact Or.inl hx1
          · rw [if_neg ha] at hx1
            exact Or.inr (by rw [hx1]; exact List.mem_cons_self a (b :: l))
        · rcases collapseWs_mem (b :: l) x hx2 with h1 | h1
          · exact Or.inl h1
          · exact Or.inr (List.mem_cons_of_mem a h1)

/-- Collapsing fixes a string whose whitespace is single spaces. -/
lemma collapseWs_fix : ∀ l : List Char, wsOk l = true → noRun l = true →
    collapseWs l = l
  | [] => fun _ _ => rfl
  | [c] => by
      intro hw _
      by_cases h : isWs c = true
      · have hc : c = ' ' := by simpa [wsOk, h] using hw
        rw [collapseWs_one, if_pos h, hc]
      · rw [collapseWs_one, if_neg h]
  | a :: b :: l => by
      intro hw hn
      rw [noRun_cons] at hn
      obtain ⟨hp, hn2⟩ := Bool.and_eq_true_iff.mp hn
      rw [pairOk_cons] at hp
      have hcond : (isWs a && isWs b) = false := by
        cases hab : (isWs a && isWs b)
        · rfl
        · rw [hab] at hp; exact absurd hp (by decide)
      rw [wsOk_cons] at hw
      obtain ⟨hwa, hw2⟩ := Bool.and_eq_true_iff.mp hw
      have ih := collapseWs_fix (b :: l) hw2 hn2
      have hhead : (if isWs a then ' ' else a) = a := by
        by_cases ha : isWs a = true
        · have haa : a = ' ' := by simpa [ha] using hwa
          rw [if_pos ha, haa]
        · rw [if_neg ha]
      rw [collapseWs_two, hcond, if_neg Bool.false_ne_true, hhead, ih]

/-! ### Lemmas about `trimRight` and `List.dropWhile` -/

/-- Equation for `trimRight` on a cons. -/
lemma trimRight_cons (c : Char) (l : List Char) :
    trimRight (c :: l) =
      if (trimRight l).isEmpty && isWs c then [] else c :: trimRight l :=
  rfl

/-- `trimRight` is empty or keeps the head. -/
lemma trimRight_nil_or_cons (a : Char) (l : List Char) :
    trimRight (a :: l) = [] ∨ trimRight (a :: l) = a :: trimRight l := by
  rw [trimRight_cons]
  by_cases h : ((trimRight l).isEmpty && isWs a) = true
  · exact Or.inl (if_pos h)
  · exact Or.inr (if_neg h)

/-- `trimRight` preserves the space-only-whitespace property. -/
lemma trimRight_wsOk : ∀ l : List Char, wsOk l = true → wsOk (trimRight l) = true
  | [] => fun _ => rfl
  | a :: l => by
      intro hw
      rw [wsOk_cons] at hw
      obtain ⟨hwa, hw2⟩ := Bool.and_eq_true_iff.mp hw
      rcases trimRight_nil_or_cons a l with h | h
      · rw [h]; rfl
      · rw [h, wsOk_cons]
        exact Bool.and_eq_true_iff.mpr ⟨hwa, trimRight_wsOk l hw2⟩

/-- `trimRight` preserves the no-adjacent-whitespace property. -/
lemma trimRight_noRun : ∀ l : List Char, noRun l = true → noRun (trimRight l) = true
  | [] => fun _ => rfl
  | a :: l => by
      intro hn
      rw [noRun_cons] at hn
      obtain ⟨hp, hn2⟩ := Bool.and_eq_true_iff.mp hn
      rcases trimRight_nil_or_cons a l with h | h
      · rw [h]; rfl
      · rw [h, noRun_cons]
        refine Bool.and_eq_true_iff.mpr ⟨?_, trimRight_noRun l hn2⟩
        cases l with
        | nil => rfl
        | cons b l' =>
            rcases trimRight_nil_or_cons b l' with h2 | h2
            · rw [h2]; rfl
            · rw [h2, pairOk_cons]
              rw [pairOk_cons] at hp
              exact hp

/-- `trimRight` preserves a non-whitespace head. -/
lemma trimRight_headOk (l : List Char) (h : headOk l = true) :
    headOk (trimRight l) = true := by
  cases l with
  | nil => rfl
  | cons a l =>
      rcases trimRight_nil_or_cons a l with h1 | h1
      · rw [h1]; rfl
      · rw [h1]; exact h

/-- `trimRight` never ends in whitespace. -/
lemma trimRight_lastOk : ∀ l : List Char, lastOk (trimRight l) = true
  | [] => rfl
  | a :: l => by
      rw [trimRight_cons]
      by_cases h : ((trimRight l).isEmpty && isWs a) = true
      · rw [if_pos h]; rfl
      · rw [if_neg h]
        cases htr : trimRight l with
        | nil =>
            have ha : isWs a = false := by
              cases haa : isWs a
              · rfl
              · exact absurd (by rw [htr, haa]; rfl) h
            show lastOk [a] = true
            show (!isWs a) = true
            rw [ha]; rfl
        | cons b t =>
            show lastOk (b :: t) = true
            rw [← htr]
            exact trimRight_lastOk l

/-- `trimRight` fixes a string that does not end in whitespace. -/
lemma trimRight_fix : ∀ l : List Char, lastOk l = true → trimRight l = l
  | [] => fun _ => rfl
  | [c] => by
      intro hl
      have hc : isWs c = false := by
        cases hcc : isWs c
        · rfl
        · have h1 : (!isWs c) = true := hl
          rw [hcc] at h1
          exact absurd h1 (by decide)
      rw [trimRight_cons]
      have hcond : ((trimRight ([] : List Char)).isEmpty && isWs c) = false := by
        rw [hc]; rfl
      rw [hcond, if_neg Bool.false_ne_true]
      rfl
  | a :: b :: l => by
      intro hl
      have hl2 : lastOk (b :: l) = true := hl
      have ih := trimRight_fix (b :: l) hl2
      rw [trimRight_cons, ih]
      have : ((b :: l).isEmpty && isWs a) = false := rfl
      rw [this, if_neg Bool.false_ne_true]

/-- Characters of `trimRight l` are characters of `l`. -/
lemma trimRight_mem : ∀ (l : List Char) (x : Char), x ∈ trimRight l → x ∈ l
  | [], x => fun hx => hx
  | a :: l, x => by
      rcases trimRight_nil_or_cons a l with h | h
      · rw [h]; intro hx; exact absurd hx (List.not_mem_nil x)
      · rw [h]; intro hx
        rcases List.mem_cons.mp hx with h1 | h1
        · exact h1 ▸ List.mem_cons_self a l
        · exact List.mem_cons_of_mem a (trimRight_mem l x h1)

/-- `dropWhile isWs` returns a string with a non-whitespace head. -/
lemma dropWhile_headOk : ∀ l : List Char, headOk (l.dropWhile isWs) = true
  | [] => rfl
  | c :: l => by
      by_cases h : isWs c = true
      · rw [List.dropWhile_cons_of_pos h]; exact dropWhile_headOk l
      · rw [List.dropWhile_cons_of_neg h]
        show (!isWs c) = true
        cases hc : isWs c
        · rfl
        · exact absurd hc h

/-- `dropWhile isWs` fixes a string with a non-whitespace head. -/
lemma dropWhile_fix (l : List Char) (h : headOk l = true) :
    l.dropWhile isWs = l := by
  cases l with
  | nil => rfl
  | cons c l =>
      have hc : isWs c = false := by
        cases hcc : isWs c
        · rfl
        · have : (!isWs c) = true := h
          rw [hcc] at this
          exact absurd this (by decide)
      exact List.dropWhile_cons_of_neg (by rw [hc]; exact Bool.false_ne_true)

/-- `dropWhile isWs` preserves the space-only-whitespace property. -/
lemma dropWhile_wsOk : ∀ l : List Char, wsOk l = true →
    wsOk (l.dropWhile isWs) = true
  | [] => fun _ => rfl
  | c :: l => by
      intro hw
      rw [wsOk_cons] at hw
      obtain ⟨hwc, hw2⟩ := Bool.and_eq_true_iff.mp hw
      by_cases h : isWs c = true
      · rw [List.dropWhile_cons_of_pos h]; exact dropWhile_wsOk l hw2
      · rw [List.dropWhile_cons_of_neg h, wsOk_cons]
        exact Bool.and_eq_true_iff.mpr ⟨hwc, hw2⟩

/-- `dropWhile isWs` preserves the no-adjacent-whitespace property. -/
lemma dropWhile_noRun : ∀ l : List Char, noRun l = true →
    noRun (l.dropWhile isWs) = true
  | [] => fun _ => rfl
  | c :: l => by
      intro hn
      rw [noRun_cons] at hn
      obtain ⟨hp, hn2⟩ := Bool.and_eq_true_iff.mp hn
      by_cases h : isWs c = true
      · rw [List.dropWhile_cons_of_pos h]; exact dropWhile_noRun l hn2
      · rw [List.dropWhile_cons_of_neg h, noRun_cons]
        exact Bool.and_eq_true_iff.mpr ⟨hp, hn2⟩

/-! ### Normalized strings are fixed points -/

/-- Every character of a normalized string is normal. -/
lemma normalize_mem_charNormal (s : List Char) :
    ∀ x ∈ normalize s, charNormal x = true := by
  intro x hx
  have hx0 : x ∈ trimRight ((collapseWs ((s.map trLower).map scrub)).dropWhile isWs) :=
    hx
  have hx1 : x ∈ collapseWs ((s.map trLower).map scrub) :=
    (List.dropWhile_sublist isWs).subset (trimRight_mem _ x hx0)
  rcases collapseWs_mem _ x hx1 with h | h
  · rw [h]; exact charNormal_space
  · rcases List.mem_map.mp h with ⟨y, hy1, hy2⟩
    rcases List.mem_map.mp hy1 with ⟨z, _, hz2⟩
    rw [← hy2, ← hz2]
    exact charNormal_scrub_trLower z

/-- The shape facts about a normalized string. -/
lemma normalize_shape (s : List Char) :
    wsOk (normalize s) = true ∧ noRun (normalize s) = true
      ∧ headOk (normalize s) = true ∧ lastOk (normalize s) = true := by
  refine ⟨?_, ?_, ?_, ?_⟩
  · exact trimRight_wsOk _ (dropWhile_wsOk _ (collapseWs_wsOk _))
  · exact trimRight_noRun _ (dropWhile_noRun _ (collapseWs_noRun _))
  · exact trimRight_headOk _ (dropWhile_headOk _)
  · exact trimRight_lastOk _

/-- Mapping a function that fixes every character of a list is the
identity on the list. -/
lemma map_fix_of_mem {f : Char → Char} :
    ∀ l : List Char, (∀ x ∈ l, f x = x) → l.map f = l
  | [], _ => rfl
  | a :: l, h => by
      rw [List.map_cons, h a (List.mem_cons_self a l),
        map_fix_of_mem l (fun x hx => h x (List.mem_cons_of_mem a hx))]

/-- `normalize` is idempotent (key step of C10). -/
lemma normalize_normalize (s : List Char) :
    normalize (normalize s) = normalize s := by
  obtain ⟨hws, hnr, hhd, hlt⟩ := normalize_shape s
  have hchar := normalize_mem_charNormal s
  have h1 : (normalize s).map trLower = normalize s :=
    map_fix_of_mem _ fun x hx =>
      beq_iff_eq.mp (Bool.and_eq_true_iff.mp (hchar x hx)).1
  have h2 : (normalize s).map scrub = normalize s :=
    map_fix_of_mem _ fun x hx =>
      beq_iff_eq.mp (Bool.and_eq_true_iff.mp (hchar x hx)).2
  show trimWs (collapseWs (((normalize s).map trLower).map scrub)) = normalize s
  rw [h1, h2, collapseWs_fix _ hws hnr]
  show trimRight ((normalize s).dropWhile isWs) = normalize s
  rw [dropWhile_fix _ hhd]
  exact trimRight_fix _ hlt

/-- C10: the answer normalization is idempotent, and consequently
`isCorrect` gives the same verdict whether the user answer is submitted
raw or already normalized. -/
theorem C10_normalize_idem (s ua truth : List Char) :
    normalize (normalize s) = normalize s
      ∧ isCorrect (normalize ua) truth = isCorrect ua truth := by
  refine ⟨normalize_normalize s, ?_⟩
  simp only [isCorrect, normalize_normalize]

/-! ### The submit operation (C4) -/

/-- A word pair whose answer (in en-to-tr mode) is "elma". -/
def wE : Word :=
  ⟨['p'], ['e', 'l', 'm', 'a']⟩

/-- An Answering state with the correct answer typed in. -/
def sSubC : QState :=
  { orderedWords := [wE], idx := 0, answer := ['e', 'l', 'm', 'a'],
    revealed := false, stats := ⟨0, 0, 0⟩, quizMode := .en2tr, hintCount := 0 }

/-- An Answering state with a wrong answer typed in. -/
def sSubW : QState :=
  { orderedWords := [wE], idx := 0, answer := ['z'],
    revealed := false, stats := ⟨0, 0, 0⟩, quizMode := .en2tr, hintCount := 0 }

/-- An Answering state with a whitespace-only answer typed in. -/
def sSubB : QState :=
  { orderedWords := [wE], idx := 0, answer := [' ', ' '],
    revealed := false, stats := ⟨0, 0, 0⟩, quizMode := .en2tr, hintCount := 0 }

/-- C4: in an Answering state with a valid cursor, submit of a
blank/whitespace-only answer is a no-op; submit of an answer the matcher
accepts increments `correct` by one, advances the cursor and stays
Answering; submit of a rejected answer increments `wrong` by one, moves
to Revealed and does not advance. -/
theorem C4_submit (s : QState) (hrev : s.revealed = false) (h0 : 0 ≤ s.idx)
    (hlen : s.idx < (s.orderedWords.length : Int)) :
    (trimWs s.answer = [] → onSubmit s = s)
      ∧ (trimWs s.answer ≠ [] → isCorrect s.answer (correctAnswer s) = true →
          onSubmit s =
            { s with
              stats := { s.stats with correct := s.stats.correct + 1 }
              idx := (s.idx + 1).tmod (s.orderedWords.length : Int)
              answer := []
              revealed := false
              hintCount := 0 })
      ∧ (trimWs s.answer ≠ [] → isCorrect s.answer (correctAnswer s) = false →
          onSubmit s =
            { s with
              revealed := true
              stats := { s.stats with wrong := s.stats.wrong + 1 } }) := by
  refine ⟨?_, ?_, ?_⟩
  · intro h
    simp only [onSubmit, if_pos h]
  · intro h hc
    simp only [onSubmit, if_neg h, hc, if_pos]
    rfl
  · intro h hc
    simp only [onSubmit, if_neg h, hc, Bool.false_eq_true, if_false]

/-- Witness for C4 at concrete Answering states. -/
theorem C4_submit_witness :
    onSubmit sSubB = sSubB
      ∧ onSubmit sSubC =
          { orderedWords := [wE], idx := 0, answer := [], revealed := false,
            stats := ⟨1, 0, 0⟩, quizMode := .en2tr, hintCount := 0 }
      ∧ onSubmit sSubW =
          { orderedWords := [wE], idx := 0, answer := ['z'], revealed := true,
            stats := ⟨0, 1, 0⟩, quizMode := .en2tr, hintCount := 0 } := by
  refine ⟨?_, ?_, ?_⟩
  · exact (C4_submit sSubB rfl (by decide) (by decide)).1 (by decide)
  · have h := (C4_submit sSubC rfl (by decide) (by decide)).2.1 (by decide) (by decide)
    rw [h]; decide
  · have h := (C4_submit sSubW rfl (by decide) (by decide)).2.2 (by decide) (by decide)
    rw [h]; decide

/-! ### Permutation facts about `swapIdx` and `shuffle` -/

/-- Moving the element at position `k` to the front (replacing it by
`a`) is a permutation of putting `a` in front. -/
lemma cons_set_perm {α : Type} : ∀ (t : List α) (k : Nat) (y a : α),
    t[k]? = some y → List.Perm (y :: t.set k a) (a :: t)
  | [], k, y, a => by intro h; simp at h
  | b :: t, 0, y, a => by
      intro h
      rw [List.getElem?_cons_zero] at h
      injection h with h
      subst h
      show List.Perm (b :: a :: t) (a :: b :: t)
      exact List.Perm.swap a b t
  | b :: t, k + 1, y, a => by
      intro h
      rw [List.getElem?_cons_succ] at h
      show List.Perm (y :: b :: t.set k a) (a :: b :: t)
      exact (List.Perm.swap b y (t.set k a)).trans
        (((cons_set_perm t k y a h).cons b).trans (List.Perm.swap a b t))

/-- Swapping two present elements by a pair of `set`s is a
permutation. -/
lemma set_set_perm {α : Type} : ∀ (l : List α) (i j : Nat) (x y : α),
    l[i]? = some x → l[j]? = some y → List.Perm ((l.set i y).set j x) l
  | [], i, _, _, _ => by intro hx; simp at hx
  | a :: t, 0, 0, x, y => by
      intro hx hy
      rw [List.getElem?_cons_zero] at hx hy
      injection hx with hx
      show List.Perm (x :: t) (a :: t)
      rw [← hx]
  | a :: t, 0, j + 1, x, y => by
      intro hx hy
      rw [List.getElem?_cons_zero] at hx
      injection hx with hx
      rw [List.getElem?_cons_succ] at hy
      show List.Perm (y :: t.set j x) (a :: t)
      rw [← hx]
      exact cons_set_perm t j y a hy
  | a :: t, i + 1, 0, x, y => by
      intro hx hy
      rw [List.getElem?_cons_succ] at hx
      rw [List.getElem?_cons_zero] at hy
      injection hy with hy
      show List.Perm (x :: t.set i y) (a :: t)
      rw [← hy]
      exact cons_set_perm t i x a hx
  | a :: t, i + 1, j + 1, x, y => by
      intro hx hy
      rw [List.getElem?_cons_succ] at hx hy
      show List.Perm (a :: (t.set i y).set j x) (a :: t)
      exact (set_set_perm t i j x y hx hy).cons a

/-- A swap is a permutation. -/
lemma swapIdx_perm {α : Type} (l : List α) (i j : Nat) :
    List.Perm (swapIdx l i j) l := by
  cases hi : l[i]? with
  | none => simp [swapIdx, hi]
  | some x =>
      cases hj : l[j]? with
      | none => simp [swapIdx, hi, hj]
      | some y =>
          have hmain := set_set_perm l i j x y hi hj
          simpa [swapIdx, hi, hj] using hmain

/-- Folding swaps over any index list is a permutation. -/
lemma foldl_swap_perm {α : Type} (r : Nat → Nat) : ∀ (idxs : List Nat) (l : List α),
    List.Perm (idxs.foldl (fun acc i => swapIdx acc i (r i % (i + 1))) l) l
  | [], l => List.Perm.refl l
  | i :: idxs, l => (foldl_swap_perm r idxs _).trans (swapIdx_perm l i _)

/-- `shuffle` is a permutation of its input. -/
lemma shuffle_perm {α : Type} (r : Nat → Nat) (l : List α) :
    List.Perm (shuffle r l) l :=
  foldl_swap_perm r _ l

/-- `shuffle` preserves the length. -/
lemma shuffle_length {α : Type} (r : Nat → Nat) (l : List α) :
    (shuffle r l).length = l.length :=
  (shuffle_perm r l).length_eq

/-! ### The load effect (C5, C8) -/

/-- The condition under which the load effect discards the stored order:
not an array, or a length different from the word bank's (App.js line
76). -/
def orderMalformed (bank : List Word) (snap : Snapshot) : Bool :=
  match snap.orderedWords.getD (.arr bank) with
  | .arr l => l.length != bank.length
  | .nonArr => true

/-- Equation for `restoredOrder` when the stored order is an array. -/
lemma restoredOrder_arr (bank : List Word) (r : Nat → Nat) (snap : Snapshot)
    (l : List Word) (h : snap.orderedWords.getD (.arr bank) = .arr l) :
    restoredOrder bank r snap =
      if l.length = bank.length then l else shuffle r bank := by
  unfold restoredOrder
  rw [h]

/-- Equation for `restoredOrder` when the stored order is not an
array. -/
lemma restoredOrder_nonArr (bank : List Word) (r : Nat → Nat) (snap : Snapshot)
    (h : snap.orderedWords.getD (.arr bank) = .nonArr) :
    restoredOrder bank r snap = shuffle r bank := by
  unfold restoredOrder
  rw [h]

/-- C5 (amended): restoring a snapshot with a malformed order (non-array
or wrong length) replaces only the order by a fresh random permutation
of the bank; the snapshot's stats are still applied (zero only when the
snapshot carries no stats), and the cursor is the snapshot cursor
clamped from above to length - 1. -/
theorem C5_load (bank : List Word) (r : Nat → Nat) (snap : Snapshot) (s : QState)
    (hmal : orderMalformed bank snap = true) :
    (applyLoad bank r snap s).orderedWords = shuffle r bank
      ∧ List.Perm (applyLoad bank r snap s).orderedWords bank
      ∧ (applyLoad bank r snap s).stats = snap.stats.getD ⟨0, 0, 0⟩
      ∧ (applyLoad bank r snap s).idx
          = min (snap.idx.getD 0) ((bank.length : Int) - 1) := by
  have hro : restoredOrder bank r snap = shuffle r bank := by
    unfold orderMalformed at hmal
    rcases hov : snap.orderedWords.getD (.arr bank) with l | _
    · rw [hov] at hmal
      have hne : l.length ≠ bank.length := bne_iff_ne.mp hmal
      rw [restoredOrder_arr bank r snap l hov, if_neg hne]
    · exact restoredOrder_nonArr bank r snap hov
  refine ⟨hro, ?_, rfl, ?_⟩
  · show List.Perm (restoredOrder bank r snap) bank
    rw [hro]
    exact shuffle_perm r bank
  · show min (snap.idx.getD 0) (((restoredOrder bank r snap).length : Int) - 1)
        = min (snap.idx.getD 0) ((bank.length : Int) - 1)
    rw [hro, shuffle_length]

/-- Witness for C5 at the concrete malformed snapshot. -/
theorem C5_load_witness :
    (applyLoad bank1 r0 snapBadStats (initState r0 bank1)).orderedWords
        = shuffle r0 bank1
      ∧ (applyLoad bank1 r0 snapBadStats (initState r0 bank1)).stats = ⟨7, 0, 0⟩ := by
  obtain ⟨h1, _, h3, _⟩ :=
    C5_load bank1 r0 snapBadStats (initState r0 bank1) (by decide)
  exact ⟨h1, by rw [h3]; rfl⟩

/-- `Int.tmod` on two natural numbers is the natural remainder. -/
lemma tmod_ofNat (m n : Nat) :
    (Int.ofNat m).tmod (Int.ofNat n) = Int.ofNat (m % n) :=
  rfl

/-- C8 (amended): on a nonempty order the advance operation keeps the
cursor inside [0, len); the restore of a snapshot keeps it inside
[0, len) provided the snapshot cursor (defaulted to 0) is nonnegative —
the code clamps only from above, so negative snapshot cursors survive
(see the counterexample). -/
theorem C8_cursor_range (s : QState) (bank : List Word) (r : Nat → Nat)
    (snap : Snapshot) (s₀ : QState) :
    (0 ≤ s.idx → s.idx < (s.orderedWords.length : Int) →
        0 ≤ (goNext s).idx
          ∧ (goNext s).idx < ((goNext s).orderedWords.length : Int))
      ∧ (1 ≤ bank.length → 0 ≤ snap.idx.getD 0 →
          0 ≤ (applyLoad bank r snap s₀).idx
            ∧ (applyLoad bank r snap s₀).idx
                < ((applyLoad bank r snap s₀).orderedWords.length : Int)) := by
  constructor
  · intro h0 hlen
    obtain ⟨m, hm⟩ := Int.eq_ofNat_of_zero_le h0
    have hmlt : m < s.orderedWords.length := by
      rw [hm] at hlen
      exact_mod_cast hlen
    have hlenpos : 0 < s.orderedWords.length := Nat.lt_of_le_of_lt (Nat.zero_le m) hmlt
    have hgn : (goNext s).idx = Int.ofNat ((m + 1) % s.orderedWords.length) := by
      show (s.idx + 1).tmod (s.orderedWords.length : Int)
          = Int.ofNat ((m + 1) % s.orderedWords.length)
      rw [hm]
      exact tmod_ofNat (m + 1) s.orderedWords.length
    constructor
    · rw [hgn]; exact Int.ofNat_nonneg _
    · show (goNext s).idx < (s.orderedWords.length : Int)
      rw [hgn]
      exact Int.ofNat_lt.mpr (Nat.mod_lt (m + 1) hlenpos)
  · intro hbank hidx
    have hlen : (applyLoad bank r snap s₀).orderedWords.length = bank.length := by
      show (restoredOrder bank r snap).length = bank.length
      rcases hov : snap.orderedWords.getD (.arr bank) with l | _
      · rw [restoredOrder_arr bank r snap l hov]
        by_cases hl : l.length = bank.length
        · rw [if_pos hl]; exact hl
        · rw [if_neg hl]; exact shuffle_length r bank
      · rw [restoredOrder_nonArr bank r snap hov]
        exact shuffle_length r bank
    have hidxeq : (applyLoad bank r snap s₀).idx
        = min (snap.idx.getD 0)
            (((applyLoad bank r snap s₀).orderedWords.length : Int) - 1) := rfl
    have hb1 : (1 : Int) ≤ (bank.length : Int) := by exact_mod_cast hbank
    constructor
    · rw [hidxeq, hlen]
      exact le_min hidx (by omega)
    · rw [hidxeq, hlen]
      calc min (snap.idx.getD 0) ((bank.length : Int) - 1)
          ≤ (bank.length : Int) - 1 := min_le_right _ _
        _ < (bank.length : Int) := by omega

/-- Witness for C8 at a concrete state and snapshot. -/
theorem C8_cursor_range_witness :
    (0 ≤ (goNext sC3).idx
        ∧ (goNext sC3).idx < ((goNext sC3).orderedWords.length : Int))
      ∧ (0 ≤ (applyLoad bank1 r0 snapBadStats (initState r0 bank1)).idx
          ∧ (applyLoad bank1 r0 snapBadStats (initState r0 bank1)).idx
              < ((applyLoad bank1 r0 snapBadStats
                    (initState r0 bank1)).orderedWords.length : Int)) := by
  constructor
  · exact (C8_cursor_range sC3 bank1 r0 snapBadStats
      (initState r0 bank1)).1 (by decide) (by decide)
  · exact (C8_cursor_range sC3 bank1 r0 snapBadStats
      (initState r0 bank1)).2 (by decide) (by decide)

/-! ### The scheduler invariant (C2) and the defer round trip (C3) -/

/-- `Int.tmod` step used by the advance operation, on a natural
cursor. -/
lemma tmod_succ_natCast (x m : Nat) :
    ((x : Int) + 1).tmod ((m : Int)) = (((x + 1) % m : Nat) : Int) :=
  rfl

/-- `currentW` at a natural cursor is the optional entry with the
sentinel fallback. -/
lemma currentW_spec (s : QState) (i : Nat) (hidx : s.idx = (i : Int)) :
    currentW s = (s.orderedWords[i]?).getD sentinelW := by
  unfold currentW jsGet
  rw [hidx, if_pos (Int.natCast_nonneg i)]
  rfl

/-- What `onPass` does to the order at an in-range natural cursor. -/
lemma onPass_spec (s : QState) (i : Nat) (hidx : s.idx = (i : Int))
    (hlt : i < s.orderedWords.length) :
    (onPass s).orderedWords =
        (s.orderedWords.take i ++ s.orderedWords.drop (i + 1))
          ++ [(s.orderedWords[i]?).getD sentinelW]
      ∧ (onPass s).idx = s.idx := by
  have h1 : jsSlice s.orderedWords 0 s.idx = s.orderedWords.take i := by
    unfold jsSlice jsIndex
    rw [hidx, if_neg (by omega : ¬((i : Int) < 0)),
      if_neg (by omega : ¬((0 : Int) < 0))]
    show (s.orderedWords.take (min i s.orderedWords.length)).drop
        (min 0 s.orderedWords.length) = s.orderedWords.take i
    rw [min_eq_left (Nat.le_of_lt hlt), min_eq_left (Nat.zero_le _),
      List.drop_zero]
  have h2 : jsSlice s.orderedWords (s.idx + 1) (s.orderedWords.length : Int)
      = s.orderedWords.drop (i + 1) := by
    unfold jsSlice jsIndex
    rw [hidx, if_neg (by omega : ¬((s.orderedWords.length : Int) < 0)),
      if_neg (by omega : ¬((i : Int) + 1 < 0))]
    show (s.orderedWords.take
          (min s.orderedWords.length s.orderedWords.length)).drop
        (min (i + 1) s.orderedWords.length) = s.orderedWords.drop (i + 1)
    rw [min_self, List.take_length, min_eq_left hlt]
  refine ⟨?_, rfl⟩
  show (jsSlice s.orderedWords 0 s.idx
      ++ jsSlice s.orderedWords (s.idx + 1) (s.orderedWords.length : Int))
      ++ [currentW s] = _
  rw [h1, h2, currentW_spec s i hidx]

/-- Removing the entry at an in-range position and appending it at the
end is a permutation of the whole list. -/
lemma erase_append_perm {α : Type} (l : List α) (i : Nat) (d : α)
    (h : i < l.length) :
    List.Perm ((l.take i ++ l.drop (i + 1)) ++ [(l[i]?).getD d]) l := by
  rw [List.getElem?_eq_getElem h, Option.getD_some, List.append_assoc]
  have hl : l = l.take i ++ (l[i] :: l.drop (i + 1)) := by
    conv_lhs => rw [← List.take_append_drop i l]
    rw [List.drop_eq_getElem_cons h]
  conv_rhs => rw [hl]
  exact List.Perm.append_left _ (List.perm_append_singleton _ _)

/-- The invariant maintained by the scheduler operations: the order is a
permutation of the bank and the cursor is a natural number inside it. -/
def goodState (bank : List Word) (s : QState) : Prop :=
  List.Perm s.orderedWords bank
    ∧ ∃ i : Nat, s.idx = (i : Int) ∧ i < s.orderedWords.length

/-- Advance preserves the invariant. -/
lemma goodState_goNext {bank : List Word} {s : QState}
    (h : goodState bank s) : goodState bank (goNext s) := by
  obtain ⟨hp, i, hi, hlt⟩ := h
  refine ⟨hp, (i + 1) % s.orderedWords.length, ?_, ?_⟩
  · show (s.idx + 1).tmod ((s.orderedWords.length : Int)) = _
    rw [hi]
    exact tmod_succ_natCast i s.orderedWords.length
  · show (i + 1) % s.orderedWords.length < (goNext s).orderedWords.length
    exact Nat.mod_lt (i + 1) (Nat.lt_of_le_of_lt (Nat.zero_le i) hlt)

/-- Defer preserves the invariant. -/
lemma goodState_onPass {bank : List Word} {s : QState}
    (h : goodState bank s) : goodState bank (onPass s) := by
  obtain ⟨hp, i, hi, hlt⟩ := h
  obtain ⟨hw, hidx⟩ := onPass_spec s i hi hlt
  have hperm : List.Perm (onPass s).orderedWords s.orderedWords := by
    rw [hw]
    exact erase_append_perm s.orderedWords i sentinelW hlt
  refine ⟨hperm.trans hp, i, ?_, ?_⟩
  · rw [hidx]; exact hi
  · rw [hperm.length_eq]; exact hlt

/-- Reshuffle preserves the invariant. -/
lemma goodState_karistir {bank : List Word} {s : QState} (r : Nat → Nat)
    (h : goodState bank s) : goodState bank (karistir r s) := by
  obtain ⟨hp, i, hi, hlt⟩ := h
  refine ⟨(shuffle_perm r s.orderedWords).trans hp, 0, rfl, ?_⟩
  show 0 < (shuffle r s.orderedWords).length
  rw [shuffle_length]
  exact Nat.lt_of_le_of_lt (Nat.zero_le i) hlt

/-- A fresh session satisfies the invariant when the bank is
nonempty. -/
lemma goodState_init (bank : List Word) (r : Nat → Nat)
    (hbank : 1 ≤ bank.length) : goodState bank (initState r bank) := by
  refine ⟨shuffle_perm r bank, 0, rfl, ?_⟩
  show 0 < (shuffle r bank).length
  rw [shuffle_length]
  omega

/-- Any sequence of scheduler operations preserves the invariant. -/
lemma foldl_sched_good (bank : List Word) : ∀ (ops : List SchedOp) (s : QState),
    goodState bank s → goodState bank (ops.foldl applySched s)
  | [], _, h => h
  | op :: ops, s, h => by
      apply foldl_sched_good bank ops
      cases op with
      | advance => exact goodState_goNext h
      | pass => exact goodState_onPass h
      | reshuffle r => exact goodState_karistir r h

/-- C2 (amended): for a bank of size at least 1, after any sequence of
advance, defer_to_end and reshuffle operations the order remains a
permutation of the word bank; restore preserves the invariant only when
the snapshot's order array is itself a permutation of the bank, since
the load effect validates only array-ness and length (see the
counterexample). -/
theorem C2_sched_perm (bank : List Word) (r : Nat → Nat) (ops : List SchedOp)
    (hbank : 1 ≤ bank.length) :
    List.Perm ((ops.foldl applySched (initState r bank)).orderedWords) bank :=
  (foldl_sched_good bank ops (initState r bank) (goodState_init bank r hbank)).1

/-- Witness for C2 at a concrete bank and operation sequence. -/
theorem C2_sched_perm_witness :
    List.Perm ((([SchedOp.pass, SchedOp.advance, SchedOp.reshuffle r0]).foldl
        applySched (initState r0 bank2)).orderedWords) bank2 :=
  C2_sched_perm bank2 r0 [SchedOp.pass, SchedOp.advance, SchedOp.reshuffle r0]
    (by decide)

/-- `goNext` never changes the order, iterated. -/
lemma iterate_goNext_words : ∀ (k : Nat) (s : QState),
    (goNext^[k] s).orderedWords = s.orderedWords
  | 0, _ => rfl
  | k + 1, s => by
      rw [Function.iterate_succ_apply']
      show (goNext^[k] s).orderedWords = s.orderedWords
      exact iterate_goNext_words k s

/-- The cursor after `k` advances from a natural cursor `j`. -/
lemma iterate_goNext_idx : ∀ (k : Nat) (s : QState) (j m : Nat),
    s.orderedWords.length = m → j < m → s.idx = (j : Int) →
    (goNext^[k] s).idx = (((j + k) % m : Nat) : Int)
  | 0, s, j, m, _, hj, hidx => by
      rw [Function.iterate_zero_apply, hidx, Nat.add_zero, Nat.mod_eq_of_lt hj]
  | k + 1, s, j, m, hm, hj, hidx => by
      rw [Function.iterate_succ_apply']
      have ihw := iterate_goNext_words k s
      have ih := iterate_goNext_idx k s j m hm hj hidx
      show ((goNext^[k] s).idx + 1).tmod
          (((goNext^[k] s).orderedWords.length : Int)) = _
      rw [ih, ihw, hm, tmod_succ_natCast ((j + k) % m) m]
      have hmod : ((j + k) % m + 1) % m = ((j + k) + 1) % m :=
        (Nat.mod_modEq (j + k) m).add_right 1
      have harr : (j + k) + 1 = j + (k + 1) := by omega
      exact congrArg (fun z : Nat => (z : Int)) (by rw [hmod, harr])

/-- C3 (amended): the defer round trip holds exactly at cursor 0: with
the cursor at position 0 of a nonempty order of length n, defer followed
by n-1 advances returns to the deferred item, and the k-th state before
that (k < n-1) shows the item originally at position k+1, so every other
item is visited exactly once in between.  For a cursor at position
i >= 1 the property fails (see the counterexample): after n-1 advances
the cursor sits on the item originally preceding the deferred one. -/
theorem C3_defer_roundtrip (s : QState) (h0 : s.idx = 0)
    (hne : s.orderedWords ≠ []) :
    currentW (goNext^[s.orderedWords.length - 1] (onPass s))
        = s.orderedWords.getD 0 sentinelW
      ∧ ∀ k, k < s.orderedWords.length - 1 →
          currentW (goNext^[k] (onPass s))
            = s.orderedWords.getD (k + 1) sentinelW := by
  cases hl : s.orderedWords with
  | nil => exact absurd hl hne
  | cons a t =>
      have h0' : s.idx = ((0 : Nat) : Int) := h0
      have hlt0 : 0 < s.orderedWords.length := by rw [hl]; simp
      obtain ⟨hw, hidx⟩ := onPass_spec s 0 h0' hlt0
      have hw' : (onPass s).orderedWords = t ++ [a] := by
        rw [hw, hl]
        simp
      have hm : (onPass s).orderedWords.length = t.length + 1 := by
        rw [hw']
        simp
      have hidx' : (onPass s).idx = ((0 : Nat) : Int) := by
        rw [hidx]; exact h0'
      have hwords : ∀ k, (goNext^[k] (onPass s)).orderedWords = t ++ [a] :=
        fun k => by rw [iterate_goNext_words k (onPass s), hw']
      have hidxk : ∀ k, k < t.length + 1 →
          (goNext^[k] (onPass s)).idx = ((k : Nat) : Int) := by
        intro k hk
        have h := iterate_goNext_idx k (onPass s) 0 (t.length + 1) hm
          (by omega) hidx'
        rw [h, Nat.zero_add, Nat.mod_eq_of_lt hk]
      have hcur : ∀ k, k < t.length + 1 →
          currentW (goNext^[k] (onPass s))
            = ((t ++ [a])[k]?).getD sentinelW := by
        intro k hk
        rw [currentW_spec (goNext^[k] (onPass s)) k (hidxk k hk), hwords k]
      constructor
      · have e1 : (a :: t).length - 1 = t.length := by simp
        rw [e1, hcur t.length (by omega), List.getElem?_concat_length]
        rfl
      · intro k hk
        have hk' : k < t.length := by simpa using hk
        rw [hcur k (by omega), List.getElem?_append_left hk',
          List.getD_eq_getElem?_getD, List.getElem?_cons_succ]

/-- A three-word state at cursor 0. -/
def sC3b : QState :=
  { orderedWords := [wA, wB, wE], idx := 0, answer := [], revealed := false,
    stats := ⟨0, 0, 0⟩, quizMode := .en2tr, hintCount := 0 }

/-- Witness for C3 at a concrete three-word order. -/
theorem C3_defer_roundtrip_witness :
    currentW (goNext^[2] (onPass sC3b)) = wA
      ∧ currentW (goNext^[0] (onPass sC3b)) = wB := by
  have h := C3_defer_roundtrip sC3b rfl (by decide)
  exact ⟨h.1, h.2 0 (by decide)⟩

end KelimeQuiz
